import Mathlib

set_option autoImplicit false

namespace Relayer

/-!
Shallow embedding of the peer-connection and validator-quorum core of the
signature aggregator (`signature-aggregator/peers/app_request_network.go`).

Node identifiers and IP addresses are modelled as natural numbers.  The
external collaborators at the interface boundary are modelled as explicit
state: `NetworkState.connected` is the set of node ids with an existing live
connection (the source of `network.PeerInfo`), and `NetworkState.peersReply`
is the reply of the peer-directory service `infoAPI.Peers` (`none` models the
call returning an error).  The side effects of a call are recorded as an
explicit event trace (`NetEvent`).
-/

/-- One canonical validator: its node-identifier list and its weight
(`warp.Validator` as used by `ConnectToCanonicalValidators`). -/
structure Validator where
  nodeIDs : List Nat
  weight : Nat
deriving DecidableEq

/-- One entry of the peer-directory reply (`info.Peers`): node id and public IP. -/
structure Peer where
  id : Nat
  publicIP : Nat
deriving DecidableEq

/-- Observable actions of `ConnectPeers`: taking and releasing the mutex,
reading existing connections (`network.PeerInfo`), querying the peer
directory (`infoAPI.Peers`), and establishing a connection
(`network.ManuallyTrack`). -/
inductive NetEvent where
  | lock
  | peerInfo (requested : Finset Nat)
  | peersQuery
  | manuallyTrack (node : Nat) (ip : Nat)
  | unlock
deriving DecidableEq

/-- State of the external network collaborators during one call. -/
structure NetworkState where
  connected : Finset Nat
  peersReply : Option (List Peer)

/-- `network.PeerInfo(nodeIDs.List())`: information about the requested nodes
that are currently connected; modelled as the connected subset of the
request (the code only uses its length). -/
def peerInfoOf (st : NetworkState) (requested : Finset Nat) : Finset Nat :=
  requested.filter (fun n => n ∈ st.connected)

/-- The peer-iteration loop of `ConnectPeers` (app_request_network.go:158-166):
for each directory entry whose id is requested, add it to `tracked`, emit a
`ManuallyTrack`, and stop as soon as `tracked` has the full cardinality. -/
def connectLoop (nodeIDs : Finset Nat) (tracked : Finset Nat) :
    List Peer → Finset Nat × List NetEvent
  | [] => (tracked, [])
  | p :: rest =>
    if p.id ∈ nodeIDs then
      if (insert p.id tracked).card = nodeIDs.card then
        (insert p.id tracked, [NetEvent.manuallyTrack p.id p.publicIP])
      else
        ((connectLoop nodeIDs (insert p.id tracked) rest).1,
          NetEvent.manuallyTrack p.id p.publicIP ::
            (connectLoop nodeIDs (insert p.id tracked) rest).2)
    else
      connectLoop nodeIDs tracked rest

/-- `ConnectPeers` (app_request_network.go:131-194).  Returns the set of node
ids successfully connected together with the trace of its actions.  The fast
path returns the requested set when `PeerInfo` reports them all connected; a
failing directory query is logged and yields the nil (empty) set. -/
def connectPeers (st : NetworkState) (nodeIDs : Finset Nat) : Finset Nat × List NetEvent :=
  if (peerInfoOf st nodeIDs).card = nodeIDs.card then
    (nodeIDs, [NetEvent.lock, NetEvent.peerInfo nodeIDs, NetEvent.unlock])
  else
    match st.peersReply with
    | none =>
      (∅, [NetEvent.lock, NetEvent.peerInfo nodeIDs, NetEvent.peersQuery,
            NetEvent.unlock])
    | some peers =>
      ((connectLoop nodeIDs ∅ peers).1,
        NetEvent.lock :: NetEvent.peerInfo nodeIDs :: NetEvent.peersQuery ::
          ((connectLoop nodeIDs ∅ peers).2 ++ [NetEvent.unlock]))

/-- The nested loop building `nodeValidatorIndexMap`
(app_request_network.go:208-213), with the index of the current validator
carried explicitly; a Go map write `m[node] = i` is modelled as appending the
pair, so that the LAST pair for a key is its current binding. -/
def buildIndexMapFrom (i : Nat) : List Validator → List (Nat × Nat)
  | [] => []
  | v :: rest => v.nodeIDs.map (fun n => (n, i)) ++ buildIndexMapFrom (i + 1) rest

/-- `nodeValidatorIndexMap` built from the whole validator set. -/
def buildIndexMap (vs : List Validator) : List (Nat × Nat) := buildIndexMapFrom 0 vs

/-- First value bound to key `n` in an association list. -/
def firstVal (n : Nat) : List (Nat × Nat) → Option Nat
  | [] => none
  | p :: rest => if p.1 = n then some p.2 else firstVal n rest

/-- Go map lookup `m[node]`: the last write wins, i.e. the first binding in
the reversed insertion sequence. -/
def mapLookup (m : List (Nat × Nat)) (n : Nat) : Option Nat := firstVal n m.reverse

/-- Go map key set (`for node := range nodeValidatorIndexMap`). -/
def mapKeys (m : List (Nat × Nat)) : Finset Nat := (m.map Prod.fst).toFinset

/-- `validatorSet[nodeValidatorIndexMap[node]].Weight`
(app_request_network.go:227); a missing key reads Go's zero value `0`. -/
def nodeWeight (validatorSet : List Validator) (m : List (Nat × Nat)) (node : Nat) : Nat :=
  (validatorSet.getD ((mapLookup m node).getD 0) ⟨[], 0⟩).weight

/-- Result record of `ConnectToCanonicalValidators`
(`libPeers.ConnectedCanonicalValidators`). -/
structure ConnectedCanonicalValidators where
  ConnectedWeight : Nat
  TotalValidatorWeight : Nat
  ValidatorSet : List Validator
  NodeValidatorIndexMap : List (Nat × Nat)
deriving DecidableEq

/-- `ConnectToCanonicalValidators` (app_request_network.go:198-235).
`resolved` is the outcome of `GetCurrentCanonicalValidatorSet`: `none` models
the resolution call returning an error, which is the only error path; any
outcome of `ConnectPeers` yields a `some` result. -/
def connectToCanonicalValidators (st : NetworkState)
    (resolved : Option (List Validator × Nat)) : Option ConnectedCanonicalValidators :=
  match resolved with
  | none => none
  | some (validatorSet, totalValidatorWeight) =>
    some ⟨((connectPeers st (mapKeys (buildIndexMap validatorSet))).1).sum
            (nodeWeight validatorSet (buildIndexMap validatorSet)),
          totalValidatorWeight, validatorSet, buildIndexMap validatorSet⟩

/-- The connected weight as the spec words it (spec §3, §4.2): the sum of the
weights of the validators having at least one connected node, each validator
counted exactly once.  Stated for comparison with the code's computation. -/
def specConnectedWeight (vs : List Validator) (connectedNodes : Finset Nat) : Nat :=
  ((Finset.range vs.length).filter
      (fun i => ((vs.getD i ⟨[], 0⟩).nodeIDs.any (fun n => decide (n ∈ connectedNodes))) = true)).sum
    (fun i => (vs.getD i ⟨[], 0⟩).weight)

/-- The node ids of the `ManuallyTrack` calls in a trace, in order. -/
def trackNodes (evs : List NetEvent) : List Nat :=
  evs.filterMap (fun e =>
    match e with
    | NetEvent.manuallyTrack x _ => some x
    | _ => none)

/-- Events other than taking or releasing the mutex. -/
def isBody : NetEvent → Bool
  | NetEvent.lock => false
  | NetEvent.unlock => false
  | _ => true

/-- Tag every event of a trace with the identity of the calling thread. -/
def tagged (t : Bool) (evs : List NetEvent) : List (Bool × NetEvent) :=
  evs.map (fun e => (t, e))

/-- `Interleave xs ys zs`: `zs` is an order-preserving merge of the two
threads' traces `xs` and `ys`. -/
inductive Interleave : List (Bool × NetEvent) → List (Bool × NetEvent) →
    List (Bool × NetEvent) → Prop where
  | nil : Interleave [] [] []
  | left {x : Bool × NetEvent} {xs ys zs : List (Bool × NetEvent)} :
      Interleave xs ys zs → Interleave (x :: xs) ys (x :: zs)
  | right {y : Bool × NetEvent} {xs ys zs : List (Bool × NetEvent)} :
      Interleave xs ys zs → Interleave xs (y :: ys) (y :: zs)

/-- A merged trace respects the mutex: a thread may take the lock only when no
thread holds it, and only the holder may release it. -/
def mutexOK : Option Bool → List (Bool × NetEvent) → Bool
  | _, [] => true
  | none, (t, NetEvent.lock) :: rest => mutexOK (some t) rest
  | some _, (_, NetEvent.lock) :: _ => false
  | some t, (u, NetEvent.unlock) :: rest => t == u && mutexOK none rest
  | none, (_, NetEvent.unlock) :: _ => false
  | h, (_, NetEvent.peerInfo _) :: rest => mutexOK h rest
  | h, (_, NetEvent.peersQuery) :: rest => mutexOK h rest
  | h, (_, NetEvent.manuallyTrack _ _) :: rest => mutexOK h rest

/-- Outcome of one signature-collection round: the bitset of contributing
canonical validator indices and the achieved weight. -/
structure AggregateResult where
  signers : Finset Nat
  achievedWeight : Nat
deriving DecidableEq

/-- Modelled from the spec: the response-processing loop of
`CollectSignatures` (spec §4.3, steps 3-4; the collection code itself is not
under src/).  Responses arrive as pairs of a canonical validator index and
whether the partial signature verified; an unverified response is discarded,
a duplicate validator is not double-counted, and the round stops as soon as
the achieved weight reaches `quorumWeight`. -/
def collectLoop (weights : List Nat) (quorumWeight : Nat) :
    Finset Nat → Nat → List (Nat × Bool) → Finset Nat × Nat
  | acc, accW, [] => (acc, accW)
  | acc, accW, r :: rest =>
    if quorumWeight ≤ accW then (acc, accW)
    else if r.2 = false then collectLoop weights quorumWeight acc accW rest
    else if r.1 ∈ acc then collectLoop weights quorumWeight acc accW rest
    else collectLoop weights quorumWeight (insert r.1 acc) (accW + weights.getD r.1 0) rest

/-- Modelled from the spec: `CollectSignatures` (spec §4.3; the collection
code itself is not under src/).  Succeeds with the accumulated bitset and
weight when the round reaches `quorumWeight`, otherwise fails reporting
achieved versus required weight. -/
def collectSignatures (weights : List Nat) (quorumWeight : Nat)
    (responses : List (Nat × Bool)) : Except (Nat × Nat) AggregateResult :=
  if quorumWeight ≤ (collectLoop weights quorumWeight ∅ 0 responses).2 then
    Except.ok ⟨(collectLoop weights quorumWeight ∅ 0 responses).1,
      (collectLoop weights quorumWeight ∅ 0 responses).2⟩
  else
    Except.error ((collectLoop weights quorumWeight ∅ 0 responses).2, quorumWeight)

/-! ### Fast path, error path and slow path of `ConnectPeers` -/

lemma peerInfoOf_card_iff (st : NetworkState) (s : Finset Nat) :
    (peerInfoOf st s).card = s.card ↔ s ⊆ st.connected := by
  unfold peerInfoOf
  constructor
  · intro h x hx
    have heq : s.filter (fun n => n ∈ st.connected) = s :=
      Finset.eq_of_subset_of_card_le (Finset.filter_subset _ s) (le_of_eq h.symm)
    exact Finset.filter_eq_self.mp heq x hx
  · intro h
    congr 1
    exact Finset.filter_eq_self.mpr (fun x hx => h hx)

lemma connectPeers_of_subset (st : NetworkState) (s : Finset Nat) (hsub : s ⊆ st.connected) :
    connectPeers st s = (s, [NetEvent.lock, NetEvent.peerInfo s, NetEvent.unlock]) := by
  unfold connectPeers
  rw [if_pos ((peerInfoOf_card_iff st s).mpr hsub)]

lemma connectPeers_cond_false (st : NetworkState) (s : Finset Nat)
    (hnot : ¬ s ⊆ st.connected) : ¬ (peerInfoOf st s).card = s.card :=
  fun h => hnot ((peerInfoOf_card_iff st s).mp h)

lemma connectPeers_of_fail (st : NetworkState) (s : Finset Nat)
    (hnot : ¬ s ⊆ st.connected) (hnone : st.peersReply = none) :
    connectPeers st s =
      (∅, [NetEvent.lock, NetEvent.peerInfo s, NetEvent.peersQuery, NetEvent.unlock]) := by
  unfold connectPeers
  rw [if_neg (connectPeers_cond_false st s hnot), hnone]

lemma connectPeers_of_peers (st : NetworkState) (s : Finset Nat) (peers : List Peer)
    (hnot : ¬ s ⊆ st.connected) (hsome : st.peersReply = some peers) :
    connectPeers st s = ((connectLoop s ∅ peers).1,
      NetEvent.lock :: NetEvent.peerInfo s :: NetEvent.peersQuery ::
        ((connectLoop s ∅ peers).2 ++ [NetEvent.unlock])) := by
  unfold connectPeers
  rw [if_neg (connectPeers_cond_false st s hnot), hsome]

lemma connectToCanonicalValidators_isSome (st : NetworkState) (vs : List Validator) (w : Nat) :
    connectToCanonicalValidators st (some (vs, w)) ≠ none := by
  simp [connectToCanonicalValidators]

/-- C5: `ConnectToCanonicalValidators` returns an error exactly when validator
set resolution fails; every outcome of the connection step — including
connecting to no node at all — yields an error-free result, partial
connectivity being visible only in the `ConnectedWeight` field. -/
theorem c5_error_iff_resolution_failure (st : NetworkState)
    (resolved : Option (List Validator × Nat)) :
    connectToCanonicalValidators st resolved = none ↔ resolved = none := by
  cases resolved with
  | none => simp [connectToCanonicalValidators]
  | some p =>
    cases p with
    | mk vs w => simpa using connectToCanonicalValidators_isSome st vs w

theorem c5_error_iff_resolution_failure_witness :
    connectToCanonicalValidators ⟨∅, none⟩ none = none ↔
      (none : Option (List Validator × Nat)) = none :=
  c5_error_iff_resolution_failure ⟨∅, none⟩ none

/-- C3: when every requested node is already connected, `ConnectPeers` returns
exactly the requested set and performs neither a peer-directory query nor any
`ManuallyTrack` call; since it is effect-free on that path, a second call with
the same set returns the same set. -/
theorem c3_fast_path_idempotent (st : NetworkState) (s : Finset Nat)
    (hsub : s ⊆ st.connected) :
    (connectPeers st s).1 = s ∧
      NetEvent.peersQuery ∉ (connectPeers st s).2 ∧
      ∀ x ip, NetEvent.manuallyTrack x ip ∉ (connectPeers st s).2 := by
  rw [connectPeers_of_subset st s hsub]
  refine ⟨rfl, ?_, ?_⟩
  · simp
  · intro x ip
    simp

theorem c3_fast_path_idempotent_witness :
    (({1} : Finset Nat) ⊆ ({1, 2} : Finset Nat)) ∧
      ((connectPeers ⟨{1, 2}, none⟩ {1}).1 = {1} ∧
        NetEvent.peersQuery ∉ (connectPeers ⟨{1, 2}, none⟩ {1}).2 ∧
        ∀ x ip, NetEvent.manuallyTrack x ip ∉ (connectPeers ⟨{1, 2}, none⟩ {1}).2) :=
  ⟨by decide, c3_fast_path_idempotent ⟨{1, 2}, none⟩ {1} (by decide)⟩

/-- C9: for the empty request set `ConnectPeers` always takes the fast path:
it returns the empty set, performs no peer-directory query and tracks no
peer. -/
theorem c9_empty_fast_path (st : NetworkState) :
    (connectPeers st ∅).1 = ∅ ∧
      NetEvent.peersQuery ∉ (connectPeers st ∅).2 ∧
      ∀ x ip, NetEvent.manuallyTrack x ip ∉ (connectPeers st ∅).2 := by
  rw [connectPeers_of_subset st ∅ (Finset.empty_subset _)]
  refine ⟨rfl, ?_, ?_⟩
  · simp
  · intro x ip
    simp

theorem c9_empty_fast_path_witness :
    (connectPeers ⟨{3}, some [⟨7, 8⟩]⟩ ∅).1 = ∅ ∧
      NetEvent.peersQuery ∉ (connectPeers ⟨{3}, some [⟨7, 8⟩]⟩ ∅).2 ∧
      ∀ x ip, NetEvent.manuallyTrack x ip ∉ (connectPeers ⟨{3}, some [⟨7, 8⟩]⟩ ∅).2 :=
  c9_empty_fast_path ⟨{3}, some [⟨7, 8⟩]⟩

/-- C2 counterexample: with one requested, unconnected node and the peer
directory unavailable, `ConnectPeers` returns the same empty set as when the
directory is reachable but lists no peers, and `ConnectToCanonicalValidators`
still returns an error-free result with connected weight `0`: the subsystem
failure is absorbed as ordinary lower connected weight, and no distinct
`ConnectionError` reaches the caller. -/
theorem c2_directory_failure_absorbed_cex :
    (connectPeers ⟨∅, none⟩ {1}).1 = (connectPeers ⟨∅, some []⟩ {1}).1 ∧
      (connectToCanonicalValidators ⟨∅, none⟩ (some ([⟨[1], 5⟩], 5))).map
          ConnectedCanonicalValidators.ConnectedWeight = some 0 := by
  decide

/-- C2 amended: when the peer-directory service is unavailable, `ConnectPeers`
logs the failure and returns the nil (empty) set — no error value reaches the
caller — and `ConnectToCanonicalValidators` still returns an error-free
result, so the failure is surfaced only as reduced connected weight. -/
theorem c2_directory_failure_amended (st : NetworkState) (s : Finset Nat)
    (hnone : st.peersReply = none) (hnot : ¬ s ⊆ st.connected) :
    (connectPeers st s).1 = ∅ ∧
      ∀ vs w, connectToCanonicalValidators st (some (vs, w)) ≠ none := by
  refine ⟨?_, fun vs w => connectToCanonicalValidators_isSome st vs w⟩
  rw [connectPeers_of_fail st s hnot hnone]

theorem c2_directory_failure_amended_witness :
    ((⟨∅, none⟩ : NetworkState).peersReply = none ∧
        ¬ ({1} : Finset Nat) ⊆ (⟨∅, none⟩ : NetworkState).connected) ∧
      ((connectPeers ⟨∅, none⟩ {1}).1 = ∅ ∧
        ∀ vs w, connectToCanonicalValidators ⟨∅, none⟩ (some (vs, w)) ≠ none) :=
  ⟨⟨rfl, by decide⟩, c2_directory_failure_amended ⟨∅, none⟩ {1} rfl (by decide)⟩

/-- C1 (code defect): on a validator set with a single validator of weight 10
backed by two nodes, both already connected, the per-node summation of
app_request_network.go:225-228 counts that validator's weight once per
connected node: the code yields `ConnectedWeight = 20`, exceeding
`TotalValidatorWeight = 10`, while the validator-level sum required by the
claim is `10`. -/
theorem c1_connectedWeight_double_counts :
    (connectToCanonicalValidators ⟨{1, 2}, some []⟩ (some ([⟨[1, 2], 10⟩], 10))).map
        ConnectedCanonicalValidators.ConnectedWeight = some 20 ∧
      specConnectedWeight [⟨[1, 2], 10⟩] {1, 2} = 10 ∧
      specConnectedWeight [⟨[1, 2], 10⟩] {1, 2} < 20 := by
  decide

/-! ### The peer-iteration loop -/

lemma connectLoop_fst (s : Finset Nat) (peers : List Peer) :
    ∀ tracked : Finset Nat, tracked ⊆ s →
      (connectLoop s tracked peers).1 = tracked ∪ (s ∩ (peers.map Peer.id).toFinset) := by
  induction peers with
  | nil =>
    intro tracked _
    simp [connectLoop]
  | cons p rest ih =>
    intro tracked htr
    by_cases hp : p.id ∈ s
    · have hsub : insert p.id tracked ⊆ s := Finset.insert_subset hp htr
      by_cases hcard : (insert p.id tracked).card = s.card
      · have heq : insert p.id tracked = s :=
          Finset.eq_of_subset_of_card_le hsub (le_of_eq hcard.symm)
        simp only [connectLoop, if_pos hp, if_pos hcard, List.map_cons, List.toFinset_cons]
        rw [heq]
        apply Finset.Subset.antisymm
        · intro x hx
          have hx2 : x ∈ insert p.id tracked := heq.symm ▸ hx
          rcases Finset.mem_insert.mp hx2 with h | h
          · subst h
            exact Finset.mem_union.mpr (Or.inr (Finset.mem_inter.mpr
              ⟨hx, Finset.mem_insert_self _ _⟩))
          · exact Finset.mem_union.mpr (Or.inl h)
        · exact Finset.union_subset htr (Finset.inter_subset_left)
      · simp only [connectLoop, if_pos hp, if_neg hcard, List.map_cons, List.toFinset_cons]
        rw [ih _ hsub]
        ext x
        simp only [Finset.mem_union, Finset.mem_insert, Finset.mem_inter]
        constructor
        · rintro ((h | h) | ⟨hs, hX⟩)
          · subst h
            exact Or.inr ⟨hp, Or.inl rfl⟩
          · exact Or.inl h
          · exact Or.inr ⟨hs, Or.inr hX⟩
        · rintro (h | ⟨hs, h | hX⟩)
          · exact Or.inl (Or.inr h)
          · exact Or.inl (Or.inl h)
          · exact Or.inr ⟨hs, hX⟩
    · simp only [connectLoop, if_neg hp, List.map_cons, List.toFinset_cons]
      rw [ih _ htr]
      ext x
      simp only [Finset.mem_union, Finset.mem_inter, Finset.mem_insert]
      constructor
      · rintro (h | ⟨hs, hX⟩)
        · exact Or.inl h
        · exact Or.inr ⟨hs, Or.inr hX⟩
      · rintro (h | ⟨hs, h | hX⟩)
        · exact Or.inl h
        · exact absurd (h ▸ hs) hp
        · exact Or.inr ⟨hs, hX⟩

lemma trackNodes_connectPeers_slow (s : Finset Nat) (peers : List Peer) :
    trackNodes (NetEvent.lock :: NetEvent.peerInfo s :: NetEvent.peersQuery ::
        ((connectLoop s ∅ peers).2 ++ [NetEvent.unlock])) =
      trackNodes (connectLoop s ∅ peers).2 := by
  simp [trackNodes, List.filterMap_append]

lemma connectLoop_no_early_cover (s : Finset Nat) (peers : List Peer) :
    ∀ tracked : Finset Nat, tracked ⊆ s → tracked ≠ s →
      ∀ k, k < (trackNodes (connectLoop s tracked peers).2).length →
        tracked ∪ ((trackNodes (connectLoop s tracked peers).2).take k).toFinset ≠ s := by
  induction peers with
  | nil =>
    intro tracked htr hne k hk
    simp [connectLoop, trackNodes] at hk
  | cons p rest ih =>
    intro tracked htr hne k hk
    by_cases hp : p.id ∈ s
    · have hsub : insert p.id tracked ⊆ s := Finset.insert_subset hp htr
      by_cases hcard : (insert p.id tracked).card = s.card
      · simp only [connectLoop, if_pos hp, if_pos hcard] at hk ⊢
        have hk0 : k = 0 := Nat.lt_one_iff.mp (by simpa [trackNodes] using hk)
        subst hk0
        simpa [trackNodes] using hne
      · have hne2 : insert p.id tracked ≠ s := fun h => hcard (by rw [h])
        simp only [connectLoop, if_pos hp, if_neg hcard] at hk ⊢
        cases k with
        | zero => simpa using hne
        | succ k2 =>
          have hk2 : k2 < (trackNodes (connectLoop s (insert p.id tracked) rest).2).length := by
            simpa [trackNodes, Nat.succ_lt_succ_iff] using hk
          have := ih (insert p.id tracked) hsub hne2 k2 hk2
          simpa [trackNodes, Finset.union_insert, Finset.insert_union] using this
    · simp only [connectLoop, if_neg hp] at hk ⊢
      exact ih tracked htr hne k hk

/-- C4: on the slow path, `ConnectPeers` returns exactly the requested ids
that appear in the peer directory (a subset of the request), and the tracking
iteration never continues past the point where the requested set is fully
connected: no proper prefix of the `ManuallyTrack` trace already covers the
request. -/
theorem c4_slow_path_subset_early_stop (st : NetworkState) (s : Finset Nat) (peers : List Peer)
    (hsome : st.peersReply = some peers) (hnot : ¬ s ⊆ st.connected) :
    (connectPeers st s).1 = s ∩ (peers.map Peer.id).toFinset ∧
      (connectPeers st s).1 ⊆ s ∧
      ∀ k, k < (trackNodes (connectPeers st s).2).length →
        ((trackNodes (connectPeers st s).2).take k).toFinset ≠ s := by
  have hne : (∅ : Finset Nat) ≠ s := by
    intro h
    exact hnot (by rw [← h]; exact Finset.empty_subset _)
  rw [connectPeers_of_peers st s peers hnot hsome]
  have hfst : (connectLoop s ∅ peers).1 = s ∩ (peers.map Peer.id).toFinset := by
    simpa using connectLoop_fst s peers ∅ (Finset.empty_subset s)
  refine ⟨hfst, ?_, ?_⟩
  · rw [hfst]
    exact Finset.inter_subset_left
  · intro k
    rw [trackNodes_connectPeers_slow s peers]
    intro hk
    have := connectLoop_no_early_cover s peers ∅ (Finset.empty_subset s) hne k hk
    simpa using this

theorem c4_slow_path_subset_early_stop_witness :
    ((⟨∅, some [⟨1, 10⟩, ⟨5, 50⟩, ⟨2, 20⟩, ⟨9, 90⟩]⟩ : NetworkState).peersReply =
        some [⟨1, 10⟩, ⟨5, 50⟩, ⟨2, 20⟩, ⟨9, 90⟩] ∧
      ¬ ({1, 2} : Finset Nat) ⊆ (∅ : Finset Nat)) ∧
      ((connectPeers ⟨∅, some [⟨1, 10⟩, ⟨5, 50⟩, ⟨2, 20⟩, ⟨9, 90⟩]⟩ {1, 2}).1 =
          ({1, 2} : Finset Nat) ∩ ([⟨1, 10⟩, ⟨5, 50⟩, ⟨2, 20⟩, ⟨9, 90⟩].map Peer.id).toFinset ∧
        (connectPeers ⟨∅, some [⟨1, 10⟩, ⟨5, 50⟩, ⟨2, 20⟩, ⟨9, 90⟩]⟩ {1, 2}).1 ⊆ {1, 2} ∧
        ∀ k, k < (trackNodes
            (connectPeers ⟨∅, some [⟨1, 10⟩, ⟨5, 50⟩, ⟨2, 20⟩, ⟨9, 90⟩]⟩ {1, 2}).2).length →
          ((trackNodes
              (connectPeers ⟨∅, some [⟨1, 10⟩, ⟨5, 50⟩, ⟨2, 20⟩, ⟨9, 90⟩]⟩ {1, 2}).2).take
            k).toFinset ≠ {1, 2}) :=
  ⟨⟨rfl, by decide⟩,
    c4_slow_path_subset_early_stop ⟨∅, some [⟨1, 10⟩, ⟨5, 50⟩, ⟨2, 20⟩, ⟨9, 90⟩]⟩ {1, 2}
      [⟨1, 10⟩, ⟨5, 50⟩, ⟨2, 20⟩, ⟨9, 90⟩] rfl (by decide)⟩

/-! ### The node-to-validator index map -/

lemma firstVal_append_some (n c : Nat) (l1 l2 : List (Nat × Nat))
    (h : firstVal n l1 = some c) : firstVal n (l1 ++ l2) = some c := by
  induction l1 with
  | nil => simp [firstVal] at h
  | cons p rest ih =>
    by_cases hp : p.1 = n
    · simpa [firstVal, hp] using h
    · rw [List.cons_append, firstVal, if_neg hp]
      rw [firstVal, if_neg hp] at h
      exact ih h

lemma firstVal_append_none (n : Nat) (l1 l2 : List (Nat × Nat))
    (h : ∀ p ∈ l1, p.1 ≠ n) : firstVal n (l1 ++ l2) = firstVal n l2 := by
  induction l1 with
  | nil => simp
  | cons p rest ih =>
    rw [List.cons_append, firstVal, if_neg (h p (List.mem_cons_self p rest))]
    exact ih (fun q hq => h q (List.mem_cons_of_mem p hq))

lemma firstVal_all (n c : Nat) (l : List (Nat × Nat)) (hex : ∃ p ∈ l, p.1 = n)
    (hall : ∀ p ∈ l, p.1 = n → p.2 = c) : firstVal n l = some c := by
  induction l with
  | nil => simp at hex
  | cons p rest ih =>
    by_cases hp : p.1 = n
    · rw [firstVal, if_pos hp, hall p (List.mem_cons_self p rest) hp]
    · rw [firstVal, if_neg hp]
      rcases hex with ⟨q, hq, hqn⟩
      rcases List.mem_cons.mp hq with h | h
      · exact absurd (h ▸ hqn) hp
      · exact ih ⟨q, h, hqn⟩ (fun r hr hrn => hall r (List.mem_cons_of_mem p hr) hrn)

lemma mem_buildIndexMapFrom (k : Nat) (vs : List Validator) (p : Nat × Nat)
    (hp : p ∈ buildIndexMapFrom k vs) :
    ∃ j v, vs.get? j = some v ∧ p.2 = k + j ∧ p.1 ∈ v.nodeIDs := by
  induction vs generalizing k with
  | nil => simp [buildIndexMapFrom] at hp
  | cons v rest ih =>
    simp only [buildIndexMapFrom, List.mem_append] at hp
    rcases hp with h | h
    · rcases List.mem_map.mp h with ⟨n, hn, rfl⟩
      exact ⟨0, v, rfl, rfl, hn⟩
    · rcases ih (k + 1) h with ⟨j, w, hw, h2, h1⟩
      exact ⟨j + 1, w, by simpa using hw, by omega, h1⟩

lemma buildIndexMapFrom_mem (k : Nat) (vs : List Validator) (i : Nat) (v : Validator) (n : Nat)
    (hi : vs.get? i = some v) (hn : n ∈ v.nodeIDs) :
    (n, k + i) ∈ buildIndexMapFrom k vs := by
  induction vs generalizing k i with
  | nil => simp at hi
  | cons w rest ih =>
    cases i with
    | zero =>
      injection hi with hv
      subst hv
      simp only [buildIndexMapFrom, List.mem_append]
      exact Or.inl (List.mem_map.mpr ⟨n, hn, rfl⟩)
    | succ j =>
      have hi2 : rest.get? j = some v := by simpa using hi
      simp only [buildIndexMapFrom, List.mem_append]
      refine Or.inr ?_
      have heq : k + (j + 1) = k + 1 + j := by omega
      rw [heq]
      exact ih (k + 1) j hi2

lemma buildIndexMapFrom_keys (k : Nat) (vs : List Validator) :
    (buildIndexMapFrom k vs).map Prod.fst = vs.flatMap Validator.nodeIDs := by
  induction vs generalizing k with
  | nil => simp [buildIndexMapFrom]
  | cons v rest ih =>
    simp only [buildIndexMapFrom, List.map_append, List.map_map, ih, List.flatMap_cons]
    congr 1
    conv_lhs => rw [show (Prod.fst ∘ fun n : Nat => (n, k)) = id from rfl]
    rw [List.map_id]

lemma uniq_of_pairwise (vs : List Validator)
    (huniq : vs.Pairwise (fun a b => ∀ n, n ∈ a.nodeIDs → n ∉ b.nodeIDs)) :
    ∀ i j vi vj n, vs.get? i = some vi → vs.get? j = some vj →
      n ∈ vi.nodeIDs → n ∈ vj.nodeIDs → i = j := by
  intro i j vi vj n hi hj hni hnj
  rcases List.get?_eq_some.mp hi with ⟨hil, hig⟩
  rcases List.get?_eq_some.mp hj with ⟨hjl, hjg⟩
  by_contra hne
  rcases Nat.lt_or_ge i j with hlt | hge
  · have hr := List.pairwise_iff_get.mp huniq ⟨i, hil⟩ ⟨j, hjl⟩ (by simpa using hlt)
    rw [hig, hjg] at hr
    exact hr n hni hnj
  · have hlt2 : j < i := Nat.lt_of_le_of_ne hge (Ne.symm hne)
    have hr := List.pairwise_iff_get.mp huniq ⟨j, hjl⟩ ⟨i, hil⟩ (by simpa using hlt2)
    rw [hig, hjg] at hr
    exact hr n hnj hni

lemma getD_of_get? (vs : List Validator) (i : Nat) (v : Validator) (d : Validator)
    (h : vs.get? i = some v) : vs.getD i d = v := by
  induction vs generalizing i with
  | nil => simp at h
  | cons w rest ih =>
    cases i with
    | zero =>
      injection h with hv
    | succ j =>
      have h2 : rest.get? j = some v := by simpa using h
      simpa [List.getD] using ih j h2

/-- C6: when each node id belongs to exactly one validator, the
`NodeValidatorIndexMap` has as key set exactly the union of all validators'
node-identifier lists, maps every node id to the index of its owning
validator, and `ConnectToCanonicalValidators` stores exactly that map in its
result (its key set being the set passed to `ConnectPeers`). -/
theorem c6_index_map_domain (vs : List Validator)
    (huniq : vs.Pairwise (fun a b => ∀ n, n ∈ a.nodeIDs → n ∉ b.nodeIDs)) :
    mapKeys (buildIndexMap vs) = (vs.flatMap Validator.nodeIDs).toFinset ∧
      (∀ i v n, vs.get? i = some v → n ∈ v.nodeIDs →
        mapLookup (buildIndexMap vs) n = some i) ∧
      ∀ st w r, connectToCanonicalValidators st (some (vs, w)) = some r →
        r.NodeValidatorIndexMap = buildIndexMap vs := by
  have huniq2 := uniq_of_pairwise vs huniq
  refine ⟨?_, ?_, ?_⟩
  · unfold mapKeys buildIndexMap
    rw [buildIndexMapFrom_keys]
  · intro i v n hi hn
    have hmem := buildIndexMapFrom_mem 0 vs i v n hi hn
    rw [Nat.zero_add] at hmem
    unfold mapLookup buildIndexMap
    refine firstVal_all n i _ ⟨(n, i), List.mem_reverse.mpr hmem, rfl⟩ ?_
    intro p hp hpn
    rcases mem_buildIndexMapFrom 0 vs p (List.mem_reverse.mp hp) with ⟨j, w, hw, h2, h1⟩
    have hj : j = i := huniq2 j i w v n hw hi (show n ∈ w.nodeIDs from hpn ▸ h1) hn
    omega
  · intro st w r hr
    unfold connectToCanonicalValidators at hr
    injection hr with h
    rw [← h]

theorem c6_index_map_domain_witness :
    mapKeys (buildIndexMap [⟨[1, 2], 10⟩, ⟨[3], 7⟩]) =
        (([⟨[1, 2], 10⟩, ⟨[3], 7⟩] : List Validator).flatMap Validator.nodeIDs).toFinset ∧
      (∀ i v n, ([⟨[1, 2], 10⟩, ⟨[3], 7⟩] : List Validator).get? i = some v → n ∈ v.nodeIDs →
        mapLookup (buildIndexMap [⟨[1, 2], 10⟩, ⟨[3], 7⟩]) n = some i) ∧
      ∀ st w r, connectToCanonicalValidators st (some ([⟨[1, 2], 10⟩, ⟨[3], 7⟩], w)) = some r →
        r.NodeValidatorIndexMap = buildIndexMap [⟨[1, 2], 10⟩, ⟨[3], 7⟩] :=
  c6_index_map_domain [⟨[1, 2], 10⟩, ⟨[3], 7⟩] (by decide)

lemma firstVal_reverse_buildIndexMapFrom (vs : List Validator) :
    ∀ (k i : Nat) (v : Validator) (n : Nat), vs.get? i = some v → n ∈ v.nodeIDs →
      (∀ j w, i < j → vs.get? j = some w → n ∉ w.nodeIDs) →
      firstVal n (buildIndexMapFrom k vs).reverse = some (k + i) := by
  induction vs with
  | nil =>
    intro k i v n hi _ _
    simp at hi
  | cons w rest ih =>
    intro k i v n hi hn hlast
    simp only [buildIndexMapFrom, List.reverse_append]
    cases i with
    | zero =>
      injection hi with hv
      subst hv
      have hnone : ∀ p ∈ (buildIndexMapFrom (k + 1) rest).reverse, p.1 ≠ n := by
        intro p hp hpn
        rcases mem_buildIndexMapFrom (k + 1) rest p (List.mem_reverse.mp hp) with
          ⟨j, u, hu, _, h1⟩
        exact hlast (j + 1) u (Nat.succ_pos j) (by simpa using hu) (hpn ▸ h1)
      rw [firstVal_append_none n _ _ hnone]
      apply firstVal_all
      · exact ⟨(n, k), List.mem_reverse.mpr (List.mem_map.mpr ⟨n, hn, rfl⟩), rfl⟩
      · intro p hp _
        rcases List.mem_map.mp (List.mem_reverse.mp hp) with ⟨m, _, rfl⟩
        rfl
    | succ j =>
      have hi2 : rest.get? j = some v := by simpa using hi
      have hlast2 : ∀ j2 u, j < j2 → rest.get? j2 = some u → n ∉ u.nodeIDs := by
        intro j2 u hj hu
        exact hlast (j2 + 1) u (by omega) (by simpa using hu)
      rw [firstVal_append_some n (k + 1 + j) _ _ (ih (k + 1) j v n hi2 hn hlast2)]
      congr 1
      omega

/-- C10: when a node id occurs in the node lists of several validators, the
map built by `ConnectToCanonicalValidators` binds it to the greatest owning
index — later entries overwrite earlier ones — so that node's weight is read
from that last validator. -/
theorem c10_last_writer_wins (vs : List Validator) (i : Nat) (v : Validator) (n : Nat)
    (hi : vs.get? i = some v) (hn : n ∈ v.nodeIDs)
    (hlast : ∀ j w, i < j → vs.get? j = some w → n ∉ w.nodeIDs) :
    mapLookup (buildIndexMap vs) n = some i ∧
      nodeWeight vs (buildIndexMap vs) n = v.weight := by
  have h1 : mapLookup (buildIndexMap vs) n = some i := by
    unfold mapLookup buildIndexMap
    have := firstVal_reverse_buildIndexMapFrom vs 0 i v n hi hn hlast
    rwa [Nat.zero_add] at this
  refine ⟨h1, ?_⟩
  unfold nodeWeight
  rw [h1, Option.getD_some, getD_of_get? vs i v ⟨[], 0⟩ hi]

/-! ### The signature-collection round (modelled from the spec) -/

lemma collectLoop_weight (weights : List Nat) (q : Nat) (rs : List (Nat × Bool)) :
    ∀ (acc : Finset Nat) (accW : Nat), accW = acc.sum (fun i => weights.getD i 0) →
      (collectLoop weights q acc accW rs).2 =
        (collectLoop weights q acc accW rs).1.sum (fun i => weights.getD i 0) := by
  induction rs with
  | nil =>
    intro acc accW h
    simpa [collectLoop] using h
  | cons r rest ih =>
    intro acc accW h
    by_cases hq : q ≤ accW
    · simpa [collectLoop, hq] using h
    · by_cases hv : r.2 = false
      · simp only [collectLoop, if_neg hq, if_pos hv]
        exact ih acc accW h
      · by_cases hm : r.1 ∈ acc
        · simp only [collectLoop, if_neg hq, if_neg hv, if_pos hm]
          exact ih acc accW h
        · simp only [collectLoop, if_neg hq, if_neg hv, if_neg hm]
          refine ih _ _ ?_
          rw [Finset.sum_insert hm, h]
          omega

lemma collectLoop_subset (weights : List Nat) (q : Nat) (rs : List (Nat × Bool)) :
    ∀ (acc : Finset Nat) (accW : Nat),
      (collectLoop weights q acc accW rs).1 ⊆
        acc ∪ ((rs.filter (fun r => r.2)).map Prod.fst).toFinset := by
  induction rs with
  | nil =>
    intro acc accW
    simp [collectLoop]
  | cons r rest ih =>
    intro acc accW
    by_cases hq : q ≤ accW
    · simp only [collectLoop, if_pos hq]
      exact Finset.subset_union_left
    · by_cases hv : r.2 = false
      · simp only [collectLoop, if_neg hq, if_pos hv, List.filter_cons, hv]
        simpa using ih acc accW
      · have hvt : r.2 = true := by
          cases hr2 : r.2
          · exact absurd hr2 hv
          · rfl
        have hfc : (r :: rest).filter (fun p => p.2) = r :: rest.filter (fun p => p.2) := by
          simp [List.filter_cons, hvt]
        rw [hfc, List.map_cons, List.toFinset_cons]
        by_cases hm : r.1 ∈ acc
        · simp only [collectLoop, if_neg hq, if_neg hv, if_pos hm]
          refine (ih acc accW).trans ?_
          intro x hx
          simp only [Finset.mem_union, Finset.mem_insert] at hx ⊢
          tauto
        · simp only [collectLoop, if_neg hq, if_neg hv, if_neg hm]
          refine (ih (insert r.1 acc) (accW + weights.getD r.1 0)).trans ?_
          intro x hx
          simp only [Finset.mem_union, Finset.mem_insert] at hx ⊢
          tauto

lemma collectLoop_complete (weights : List Nat) (q : Nat) (rs : List (Nat × Bool)) :
    ∀ (acc : Finset Nat) (accW : Nat), (collectLoop weights q acc accW rs).2 < q →
      (collectLoop weights q acc accW rs).1 =
        acc ∪ ((rs.filter (fun r => r.2)).map Prod.fst).toFinset := by
  induction rs with
  | nil =>
    intro acc accW _
    simp [collectLoop]
  | cons r rest ih =>
    intro acc accW hlt
    by_cases hq : q ≤ accW
    · simp only [collectLoop, if_pos hq] at hlt
      omega
    · by_cases hv : r.2 = false
      · simp only [collectLoop, if_neg hq, if_pos hv] at hlt ⊢
        simpa [List.filter_cons, hv] using ih acc accW hlt
      · have hvt : r.2 = true := by
          cases hr2 : r.2
          · exact absurd hr2 hv
          · rfl
        have hfc : (r :: rest).filter (fun p => p.2) = r :: rest.filter (fun p => p.2) := by
          simp [List.filter_cons, hvt]
        rw [hfc, List.map_cons, List.toFinset_cons]
        by_cases hm : r.1 ∈ acc
        · simp only [collectLoop, if_neg hq, if_neg hv, if_pos hm] at hlt ⊢
          rw [ih acc accW hlt]
          ext x
          simp only [Finset.mem_union, Finset.mem_insert]
          constructor
          · rintro (h | h)
            · exact Or.inl h
            · exact Or.inr (Or.inr h)
          · rintro (h | h | h)
            · exact Or.inl h
            · exact Or.inl (h ▸ hm)
            · exact Or.inr h
        · simp only [collectLoop, if_neg hq, if_neg hv, if_neg hm] at hlt ⊢
          rw [ih (insert r.1 acc) (accW + weights.getD r.1 0) hlt]
          rw [Finset.insert_union, Finset.union_insert]

/-- C7 (modelled from the spec, §4.3): a collection round succeeds exactly
when the summed weight of the distinct validators whose signatures were
received and verified reaches `quorumWeight`, and a successful round never
reports an achieved weight below `quorumWeight`. -/
theorem c7_quorum_iff (weights : List Nat) (quorumWeight : Nat)
    (responses : List (Nat × Bool)) :
    ((collectSignatures weights quorumWeight responses).isOk = true ↔
      quorumWeight ≤ (((responses.filter (fun r => r.2)).map Prod.fst).toFinset).sum
        (fun i => weights.getD i 0)) ∧
      (match collectSignatures weights quorumWeight responses with
        | Except.ok res => quorumWeight ≤ res.achievedWeight
        | Except.error _ => True) := by
  have hw := collectLoop_weight weights quorumWeight responses ∅ 0 (by simp)
  constructor
  · constructor
    · intro hok
      by_cases hq : quorumWeight ≤ (collectLoop weights quorumWeight ∅ 0 responses).2
      · have hsub := collectLoop_subset weights quorumWeight responses ∅ 0
        rw [Finset.empty_union] at hsub
        refine hq.trans ?_
        rw [hw]
        exact Finset.sum_le_sum_of_subset hsub
      · unfold collectSignatures at hok
        rw [if_neg hq] at hok
        exact absurd hok (by simp [Except.isOk, Except.toBool])
    · intro hS
      by_cases hq : quorumWeight ≤ (collectLoop weights quorumWeight ∅ 0 responses).2
      · unfold collectSignatures
        rw [if_pos hq]
        rfl
      · exfalso
        have hcomp := collectLoop_complete weights quorumWeight responses ∅ 0
          (Nat.lt_of_not_le hq)
        rw [Finset.empty_union] at hcomp
        rw [hw, hcomp] at hq
        exact hq hS
  · by_cases hq : quorumWeight ≤ (collectLoop weights quorumWeight ∅ 0 responses).2
    · unfold collectSignatures
      rw [if_pos hq]
      exact hq
    · unfold collectSignatures
      rw [if_neg hq]
      trivial

theorem c7_quorum_iff_witness :
    ((collectSignatures [40, 35, 25] 67 [(0, true), (1, true)]).isOk = true ↔
      67 ≤ ((([(0, true), (1, true)] : List (Nat × Bool)).filter
          (fun r => r.2)).map Prod.fst).toFinset.sum (fun i => [40, 35, 25].getD i 0)) ∧
      (match collectSignatures [40, 35, 25] 67 [(0, true), (1, true)] with
        | Except.ok res => 67 ≤ res.achievedWeight
        | Except.error _ => True) :=
  c7_quorum_iff [40, 35, 25] 67 [(0, true), (1, true)]

/-! ### Mutual exclusion: any mutex-respecting interleaving serializes -/

lemma connectLoop_events_body (s : Finset Nat) (peers : List Peer) :
    ∀ tracked : Finset Nat, ∀ e ∈ (connectLoop s tracked peers).2, isBody e = true := by
  induction peers with
  | nil =>
    intro tracked e he
    simp [connectLoop] at he
  | cons p rest ih =>
    intro tracked e he
    by_cases hp : p.id ∈ s
    · by_cases hcard : (insert p.id tracked).card = s.card
      · simp only [connectLoop, if_pos hp, if_pos hcard, List.mem_singleton] at he
        rw [he]
        rfl
      · simp only [connectLoop, if_pos hp, if_neg hcard] at he
        rcases List.mem_cons.mp he with h | h
        · rw [h]
          rfl
        · exact ih _ e h
    · simp only [connectLoop, if_neg hp] at he
      exact ih _ e he

lemma connectPeers_events_shape (st : NetworkState) (s : Finset Nat) :
    ∃ mid, (connectPeers st s).2 = NetEvent.lock :: (mid ++ [NetEvent.unlock]) ∧
      ∀ e ∈ mid, isBody e = true := by
  by_cases hsub : s ⊆ st.connected
  · rw [connectPeers_of_subset st s hsub]
    refine ⟨[NetEvent.peerInfo s], rfl, ?_⟩
    intro e he
    rw [List.mem_singleton.mp he]
    rfl
  · cases hrep : st.peersReply with
    | none =>
      rw [connectPeers_of_fail st s hsub hrep]
      refine ⟨[NetEvent.peerInfo s, NetEvent.peersQuery], rfl, ?_⟩
      intro e he
      rcases List.mem_cons.mp he with h | h
      · rw [h]
        rfl
      · rw [List.mem_singleton.mp h]
        rfl
    | some peers =>
      rw [connectPeers_of_peers st s peers hsub hrep]
      refine ⟨NetEvent.peerInfo s :: NetEvent.peersQuery :: (connectLoop s ∅ peers).2, by simp, ?_⟩
      intro e he
      rcases List.mem_cons.mp he with h | h
      · rw [h]
        rfl
      · rcases List.mem_cons.mp h with h2 | h2
        · rw [h2]
          rfl
        · exact connectLoop_events_body s peers ∅ e h2

lemma interleave_left_nil {xs ys zs : List (Bool × NetEvent)} (h : Interleave xs ys zs)
    (hx : xs = []) : zs = ys := by
  induction h with
  | nil => rfl
  | left h ih => simp at hx
  | right h ih => rw [ih hx]

lemma interleave_locked (b2 : Bool) (ys2 : List (Bool × NetEvent)) (mxs : List NetEvent) :
    ∀ (a : Bool) (zs : List (Bool × NetEvent)), (∀ e ∈ mxs, isBody e = true) →
      Interleave (tagged a (mxs ++ [NetEvent.unlock])) ((b2, NetEvent.lock) :: ys2) zs →
      mutexOK (some a) zs = true →
      zs = tagged a (mxs ++ [NetEvent.unlock]) ++ (b2, NetEvent.lock) :: ys2 := by
  induction mxs with
  | nil =>
    intro a zs _ hint hmut
    cases hint with
    | left h =>
      rw [interleave_left_nil h rfl]
      rfl
    | right h => simp [mutexOK] at hmut
  | cons e mrest ih =>
    intro a zs hbody hint hmut
    cases hint with
    | left h =>
      have hb : isBody e = true := hbody e (List.mem_cons_self e mrest)
      rename_i zs0
      have hmut2 : mutexOK (some a) zs0 = true := by
        cases e with
        | lock => simp [isBody] at hb
        | unlock => simp [isBody] at hb
        | peerInfo l => simpa [mutexOK] using hmut
        | peersQuery => simpa [mutexOK] using hmut
        | manuallyTrack x ip => simpa [mutexOK] using hmut
      rw [ih a zs0 (fun x hx => hbody x (List.mem_cons_of_mem e hx)) h hmut2]
      rfl
    | right h => simp [mutexOK] at hmut

lemma interleave_swap {xs ys zs : List (Bool × NetEvent)} (h : Interleave xs ys zs) :
    Interleave ys xs zs := by
  induction h with
  | nil => exact Interleave.nil
  | left h ih => exact Interleave.right ih
  | right h ih => exact Interleave.left ih

lemma interleave_serializes (a b : Bool) (mxs mys : List NetEvent)
    (hxa : ∀ e ∈ mxs, isBody e = true) (hyb : ∀ e ∈ mys, isBody e = true)
    (zs : List (Bool × NetEvent))
    (hint : Interleave (tagged a (NetEvent.lock :: (mxs ++ [NetEvent.unlock])))
      (tagged b (NetEvent.lock :: (mys ++ [NetEvent.unlock]))) zs)
    (hmut : mutexOK none zs = true) :
    zs = tagged a (NetEvent.lock :: (mxs ++ [NetEvent.unlock])) ++
        tagged b (NetEvent.lock :: (mys ++ [NetEvent.unlock])) ∨
      zs = tagged b (NetEvent.lock :: (mys ++ [NetEvent.unlock])) ++
        tagged a (NetEvent.lock :: (mxs ++ [NetEvent.unlock])) := by
  rw [show tagged a (NetEvent.lock :: (mxs ++ [NetEvent.unlock])) =
    (a, NetEvent.lock) :: tagged a (mxs ++ [NetEvent.unlock]) from rfl] at hint ⊢
  rw [show tagged b (NetEvent.lock :: (mys ++ [NetEvent.unlock])) =
    (b, NetEvent.lock) :: tagged b (mys ++ [NetEvent.unlock]) from rfl] at hint ⊢
  cases hint with
  | left h =>
    rename_i zs0
    have hmut2 : mutexOK (some a) zs0 = true := by simpa [mutexOK] using hmut
    left
    rw [interleave_locked b (tagged b (mys ++ [NetEvent.unlock])) mxs a zs0 hxa h hmut2]
    rfl
  | right h =>
    rename_i zs0
    have hmut2 : mutexOK (some b) zs0 = true := by simpa [mutexOK] using hmut
    right
    rw [interleave_locked a (tagged a (mxs ++ [NetEvent.unlock])) mys b
      zs0 hyb (interleave_swap h) hmut2]
    rfl

lemma interleave_append_all (xs ys : List (Bool × NetEvent)) : Interleave xs ys (xs ++ ys) := by
  induction xs with
  | nil =>
    induction ys with
    | nil => exact Interleave.nil
    | cons y ys ih => exact Interleave.right ih
  | cons x xs ih => exact Interleave.left ih

/-- C8: every `ConnectPeers` call takes the mutex as its first action,
releases it as its last, and performs all inspection and mutation of the
shared connection state in between; hence every mutex-respecting
interleaving of two concurrent calls is exactly one call's trace followed by
the other's — concurrent callers observe a serialized view. -/
theorem c8_serialized (st1 st2 : NetworkState) (s1 s2 : Finset Nat)
    (zs : List (Bool × NetEvent))
    (hint : Interleave (tagged true (connectPeers st1 s1).2)
      (tagged false (connectPeers st2 s2).2) zs)
    (hmut : mutexOK none zs = true) :
    zs = tagged true (connectPeers st1 s1).2 ++ tagged false (connectPeers st2 s2).2 ∨
      zs = tagged false (connectPeers st2 s2).2 ++ tagged true (connectPeers st1 s1).2 := by
  rcases connectPeers_events_shape st1 s1 with ⟨m1, he1, hb1⟩
  rcases connectPeers_events_shape st2 s2 with ⟨m2, he2, hb2⟩
  rw [he1, he2] at hint ⊢
  exact interleave_serializes true false m1 m2 hb1 hb2 zs hint hmut

theorem c8_serialized_witness :
    tagged true (connectPeers ⟨∅, some []⟩ ∅).2 ++ tagged false (connectPeers ⟨∅, none⟩ ∅).2 =
        tagged true (connectPeers ⟨∅, some []⟩ ∅).2 ++
          tagged false (connectPeers ⟨∅, none⟩ ∅).2 ∨
      tagged true (connectPeers ⟨∅, some []⟩ ∅).2 ++ tagged false (connectPeers ⟨∅, none⟩ ∅).2 =
        tagged false (connectPeers ⟨∅, none⟩ ∅).2 ++
          tagged true (connectPeers ⟨∅, some []⟩ ∅).2 :=
  c8_serialized ⟨∅, some []⟩ ⟨∅, none⟩ ∅ ∅ _ (interleave_append_all _ _) (by decide)

theorem c10_last_writer_wins_witness :
    mapLookup (buildIndexMap [⟨[5], 3⟩, ⟨[5], 4⟩]) 5 = some 1 ∧
      nodeWeight [⟨[5], 3⟩, ⟨[5], 4⟩] (buildIndexMap [⟨[5], 3⟩, ⟨[5], 4⟩]) 5 =
        (⟨[5], 4⟩ : Validator).weight :=
  c10_last_writer_wins [⟨[5], 3⟩, ⟨[5], 4⟩] 1 ⟨[5], 4⟩ 5 rfl (by decide) (by
    intro j w hj hw
    have : (2 : Nat) ≤ j := hj
    rw [List.get?_eq_none.mpr (by simpa using this)] at hw
    exact Option.noConfusion hw)

end Relayer
